import Mathlib

/-!
Verification of the PTB reader utilities (data/ptb_reader.py).

The Python module is embedded shallowly:

* strings are `List Char`; `str.replace(old, new)` is `replaceList`
  (left-to-right, non-overlapping, exactly Python semantics);
* `_read_words` / `_read_chars` are `readWordsL` / `readChars`;
* `_build_vocab` (Counter, sort by `(-count, token)`, ids `0..N-1`) is
  `buildVocab` / `lookupId`;
* `_file_to_word_ids` (list comprehension with membership filter) is
  `fileToIds`;
* `ptb_raw_data` is `ptbRawData` (file contents passed as values);
* `ptb_producer` (truncate, reshape to `batch_size × batch_len`,
  `epoch_size = (batch_len - 1) // num_steps`, slice windows) is
  `batchLen`/`truncData`/`grid`/`epochSize`/`xWindow`/`yWindow`/`windows`.
  Note that in the source the `tf.assert_positive` guard on `epoch_size`
  is commented out, so the embedded producer is a total function.
-/

/-- Scanner for Python `s.replace(pat, rep)`: at skip `0`, test for an
occurrence of `pat` at the current position, emit `rep` on a match and
skip the rest of the matched occurrence; otherwise keep the character. -/
def replaceGo (pat rep : List Char) : Nat → List Char → List Char
  | _, [] => []
  | k + 1, _ :: rest => replaceGo pat rep k rest
  | 0, c :: rest =>
    if pat.isPrefixOf (c :: rest) ∧ pat ≠ [] then
      rep ++ replaceGo pat rep (pat.length - 1) rest
    else
      c :: replaceGo pat rep 0 rest

/-- Python `s.replace(pat, rep)` on character lists: scan left to right,
replace each non-overlapping occurrence of `pat` by `rep`. -/
def replaceList (pat rep : List Char) (s : List Char) : List Char :=
  replaceGo pat rep 0 s

/-- Skipping `k` characters is dropping them. -/
theorem replaceGo_skip (pat rep : List Char) :
    ∀ (k : Nat) (s : List Char), replaceGo pat rep k s = replaceGo pat rep 0 (s.drop k)
  | 0, s => by rw [List.drop_zero]
  | k + 1, [] => by
    rw [List.drop_nil]
    rfl
  | k + 1, c :: rest => by
    rw [show replaceGo pat rep (k + 1) (c :: rest) = replaceGo pat rep k rest from rfl,
      replaceGo_skip pat rep k rest, List.drop_succ_cons]

/-- The left-to-right recurrence of Python `replace`: on a match, emit
the replacement and continue after the matched occurrence; otherwise
keep the head character. -/
theorem replaceList_cons (pat rep : List Char) (c : Char) (rest : List Char) :
    replaceList pat rep (c :: rest) =
      if pat.isPrefixOf (c :: rest) ∧ pat ≠ [] then
        rep ++ replaceList pat rep (rest.drop (pat.length - 1))
      else
        c :: replaceList pat rep rest := by
  unfold replaceList
  rw [show replaceGo pat rep 0 (c :: rest) =
      if pat.isPrefixOf (c :: rest) ∧ pat ≠ [] then
        rep ++ replaceGo pat rep (pat.length - 1) rest
      else
        c :: replaceGo pat rep 0 rest from rfl,
    replaceGo_skip pat rep (pat.length - 1) rest]

/-- Whether `pat` occurs as a contiguous substring of `s`. -/
def containsTok (pat : List Char) : List Char → Bool
  | [] => pat.isEmpty
  | c :: rest => pat.isPrefixOf (c :: rest) || containsTok pat rest

def eosTok : List Char := ['<', 'e', 'o', 's', '>']

def newlineTok : List Char := ['\n']

def plusTok : List Char := ['+']

/-- Python `str.split()` with an accumulator: split on whitespace runs,
dropping empty tokens. -/
def splitWs (acc : List Char) : List Char → List (List Char)
  | [] => if acc.isEmpty then [] else [acc.reverse]
  | c :: rest =>
    if c.isWhitespace then
      if acc.isEmpty then splitWs [] rest else acc.reverse :: splitWs [] rest
    else
      splitWs (c :: acc) rest

/-- `_read_words`: replace newlines by `<eos>`, split on whitespace
(tokens as character lists). -/
def readWordsL (s : List Char) : List (List Char) :=
  splitWs [] (replaceList newlineTok eosTok s)

/-- `_read_words` with tokens packed as `String` (for the lexicographic
sort key of `_build_vocab`). -/
def readWords (s : List Char) : List String :=
  (readWordsL s).map (fun l => String.mk l)

/-- `_read_chars`: replace newlines by `<eos>`, then every `<eos>` by `+`;
the resulting characters are the tokens. -/
def readChars (s : List Char) : List Char :=
  replaceList eosTok plusTok (replaceList newlineTok eosTok s)

/-- The items of `collections.Counter(data)`: each distinct token paired
with its exact multiplicity in `data`. -/
def countPairs {α : Type} [DecidableEq α] (data : List α) : List (α × Nat) :=
  data.dedup.map (fun w => (w, data.countP (fun x => decide (x = w))))

/-- The sort key `lambda x: (-x[1], x[0])` of `_build_vocab`, as an
order: higher count first, ties broken by token order. -/
def pairRel {α : Type} [LinearOrder α] (p q : α × Nat) : Prop :=
  q.2 < p.2 ∨ (p.2 = q.2 ∧ p.1 ≤ q.1)

instance {α : Type} [LinearOrder α] : DecidableRel (pairRel (α := α)) :=
  fun p q => inferInstanceAs (Decidable (q.2 < p.2 ∨ (p.2 = q.2 ∧ p.1 ≤ q.1)))

/-- `sorted(counter.items(), key=...)` followed by `zip(*count_pairs)`:
the tokens in sorted order. -/
def vocabFromPairs {α : Type} [LinearOrder α] (items : List (α × Nat)) : List α :=
  (List.insertionSort pairRel items).map Prod.fst

/-- `_build_vocab` / `_build_char`: tokens sorted by `(-count, token)`;
the id of a token is its index in this list. -/
def buildVocab {α : Type} [LinearOrder α] [DecidableEq α] (data : List α) : List α :=
  vocabFromPairs (countPairs data)

/-- Lookup in `dict(zip(words, range(len(words))))`: the index of the
first occurrence of `w` in `v`, if any. -/
def lookupId {α : Type} [DecidableEq α] : List α → α → Option Nat
  | [], _ => none
  | x :: xs, w => if x = w then some 0 else (lookupId xs w).map (· + 1)

/-- `_file_to_word_ids` / `_file_to_char_ids`:
`[m[word] for word in data if word in m]`. -/
def fileToIds {α : Type} (m : α → Option Nat) : List α → List Nat
  | [] => []
  | w :: ws =>
    match m w with
    | some i => i :: fileToIds m ws
    | none => fileToIds m ws

/-- `ptb_raw_data`, with the three file contents passed as values.
Unknown granularity raises; otherwise the vocabulary is built from the
training text and all three texts are encoded against it. -/
def ptbRawData (level : String) (trainText validText testText : List Char) :
    Except String (List Nat × List Nat × List Nat × Nat) :=
  if level ≠ "word" ∧ level ≠ "char" then
    Except.error "Unknown level"
  else if level = "word" then
    let dictionary := buildVocab (readWords trainText)
    Except.ok (fileToIds (lookupId dictionary) (readWords trainText),
               fileToIds (lookupId dictionary) (readWords validText),
               fileToIds (lookupId dictionary) (readWords testText),
               dictionary.length)
  else
    let dictionary := buildVocab (readChars trainText)
    Except.ok (fileToIds (lookupId dictionary) (readChars trainText),
               fileToIds (lookupId dictionary) (readChars validText),
               fileToIds (lookupId dictionary) (readChars testText),
               dictionary.length)

/-- `batch_len = data_len // batch_size`. -/
def batchLen (dataLen batchSize : Nat) : Nat := dataLen / batchSize

/-- `tf.slice(raw_data, [0], [batch_size * batch_len])`. -/
def truncData (raw : List Int) (batchSize : Nat) : List Int :=
  raw.take (batchSize * batchLen raw.length batchSize)

/-- Row `r` of `tf.reshape(rd, [batch_size, batch_len])`. -/
def gridRow (raw : List Int) (batchSize r : Nat) : List Int :=
  ((truncData raw batchSize).drop (r * batchLen raw.length batchSize)).take
    (batchLen raw.length batchSize)

/-- The reshaped `[batch_size, batch_len]` grid as a list of rows. -/
def grid (raw : List Int) (batchSize : Nat) : List (List Int) :=
  (List.range batchSize).map (gridRow raw batchSize)

/-- `epoch_size = (batch_len - 1) // num_steps`, Python floor division on
integers (`batch_len - 1` is `-1` when `batch_len = 0`). -/
def epochSize (dataLen batchSize numSteps : Nat) : Int :=
  Int.fdiv ((batchLen dataLen batchSize : Int) - 1) (numSteps : Int)

/-- The number of window indices dequeued per epoch from
`tf.train.range_input_producer(epoch_size)`: none when
`epoch_size ≤ 0`. -/
def numWindows (dataLen batchSize numSteps : Nat) : Nat :=
  (epochSize dataLen batchSize numSteps).toNat

/-- `x = tf.slice(data, [0, i*num_steps], [batch_size, num_steps])`. -/
def xWindow (raw : List Int) (batchSize numSteps i : Nat) : List (List Int) :=
  (grid raw batchSize).map (fun row => (row.drop (i * numSteps)).take numSteps)

/-- `y = tf.slice(data, [0, i*num_steps+1], [batch_size, num_steps])`. -/
def yWindow (raw : List Int) (batchSize numSteps i : Nat) : List (List Int) :=
  (grid raw batchSize).map (fun row => (row.drop (i * numSteps + 1)).take numSteps)

/-- One epoch of `ptb_producer`: the `(x, y)` pairs for
`i = 0 .. epoch_size - 1`. -/
def windows (raw : List Int) (batchSize numSteps : Nat) :
    List (List (List Int) × List (List Int)) :=
  (List.range (numWindows raw.length batchSize numSteps)).map
    (fun i => (xWindow raw batchSize numSteps i, yWindow raw batchSize numSteps i))

/-- C1: with `raw_data = [0,1,2,3]`, `batch_size = 2`, `num_steps = 5`,
`epoch_size` is `0`, yet the producer runs to completion and silently
yields an empty window sequence — the `tf.assert_positive` guard that the
docstring promises is commented out in the source, so no
invalid-argument error is raised. -/
theorem ptbProducer_silent_on_nonpositive_epoch :
    epochSize 4 2 5 = 0 ∧ windows [0, 1, 2, 3] 2 5 = [] := by
  constructor
  · rfl
  · rfl

/-- C5: the worked example: sequence `[0..9]`, `batch_size = 2`,
`num_steps = 3` give `batch_len = 5`, `epoch_size = 1`,
grid `[[0,1,2,3,4],[5,6,7,8,9]]`, and a single window with input
`[[0,1,2],[5,6,7]]` and target `[[1,2,3],[6,7,8]]`. -/
theorem ptbProducer_example :
    batchLen 10 2 = 5 ∧
    epochSize 10 2 3 = 1 ∧
    grid [0, 1, 2, 3, 4, 5, 6, 7, 8, 9] 2 = [[0, 1, 2, 3, 4], [5, 6, 7, 8, 9]] ∧
    windows [0, 1, 2, 3, 4, 5, 6, 7, 8, 9] 2 3 =
      [([[0, 1, 2], [5, 6, 7]], [[1, 2, 3], [6, 7, 8]])] := by
  refine ⟨rfl, rfl, rfl, rfl⟩

/-- C9: any granularity other than word or char makes `ptb_raw_data`
fail with the invalid-argument exception, returning no data. -/
theorem ptbRawData_unknown_level (level : String) (t v te : List Char)
    (h1 : level ≠ "word") (h2 : level ≠ "char") :
    ptbRawData level t v te = Except.error "Unknown level" := by
  unfold ptbRawData
  rw [if_pos ⟨h1, h2⟩]

/-- Witness for C9 at the concrete granularity string wrod. -/
theorem ptbRawData_unknown_level_witness :
    ptbRawData "wrod" [] [] [] = Except.error "Unknown level" :=
  ptbRawData_unknown_level "wrod" [] [] [] (by decide) (by decide)

/-- `bs * (L / bs) ≤ L`: the truncated length fits in the raw data. -/
theorem batchLen_mul_le (L bs : Nat) : bs * batchLen L bs ≤ L := by
  unfold batchLen
  exact Nat.mul_div_le L bs

/-- The truncated sequence has exactly `batch_size * batch_len`
elements. -/
theorem truncData_length (raw : List Int) (bs : Nat) :
    (truncData raw bs).length = bs * batchLen raw.length bs := by
  unfold truncData
  rw [List.length_take]
  have h := batchLen_mul_le raw.length bs
  omega

/-- Each grid row (below `batch_size`) has exactly `batch_len`
elements. -/
theorem gridRow_length (raw : List Int) (bs r : Nat) (hr : r < bs) :
    (gridRow raw bs r).length = batchLen raw.length bs := by
  unfold gridRow
  rw [List.length_take, List.length_drop, truncData_length]
  have h : (r + 1) * batchLen raw.length bs ≤ bs * batchLen raw.length bs :=
    Nat.mul_le_mul_right _ hr
  have h2 : (r + 1) * batchLen raw.length bs =
      r * batchLen raw.length bs + batchLen raw.length bs := by ring
  omega

/-- Indexing the list of grid rows. -/
theorem grid_getD (raw : List Int) (bs r : Nat) (hr : r < bs) :
    (grid raw bs).getD r [] = gridRow raw bs r := by
  unfold grid
  rw [List.getD_eq_getElem?_getD, List.getElem?_map, List.getElem?_range hr]
  rfl

/-- Grid entry `(r, c)` is raw element `r * batch_len + c`. -/
theorem grid_entry (raw : List Int) (bs r c : Nat) (hr : r < bs)
    (hc : c < batchLen raw.length bs) :
    (gridRow raw bs r).getD c 0 = raw.getD (r * batchLen raw.length bs + c) 0 := by
  have hin : r * batchLen raw.length bs + c < bs * batchLen raw.length bs := by
    have h : (r + 1) * batchLen raw.length bs ≤ bs * batchLen raw.length bs :=
      Nat.mul_le_mul_right _ hr
    have h2 : (r + 1) * batchLen raw.length bs =
        r * batchLen raw.length bs + batchLen raw.length bs := by ring
    omega
  unfold gridRow truncData
  rw [List.getD_eq_getElem?_getD, List.getD_eq_getElem?_getD,
    List.getElem?_take, if_pos hc, List.getElem?_drop,
    List.getElem?_take, if_pos hin]

/-- The number of produced windows, as a natural-number formula. -/
theorem numWindows_eq (L bs ns : Nat) (hns : 0 < ns) :
    numWindows L bs ns = (batchLen L bs - 1) / ns := by
  unfold numWindows epochSize
  rcases Nat.eq_zero_or_pos (batchLen L bs) with h | h
  · rw [h]
    simp only [Nat.cast_zero, zero_sub, Nat.zero_sub, Nat.zero_div]
    rw [Int.fdiv_eq_ediv _ (by positivity)]
    have hlt : (-1 : Int) / (ns : Int) < 0 :=
      Int.ediv_neg' (by omega) (by exact_mod_cast hns)
    omega
  · have hc : ((batchLen L bs : Nat) : Int) - 1 = ((batchLen L bs - 1 : Nat) : Int) := by
      omega
    rw [hc, ← Int.ofNat_fdiv, Int.toNat_ofNat]

/-- Every produced window index leaves both slices in bounds. -/
theorem window_bound (L bs ns i : Nat) (hns : 0 < ns)
    (hi : i < numWindows L bs ns) :
    i * ns + ns + 1 ≤ batchLen L bs := by
  rw [numWindows_eq L bs ns hns] at hi
  have h1 : i + 1 ≤ (batchLen L bs - 1) / ns := hi
  rw [Nat.le_div_iff_mul_le hns] at h1
  have h3 : (i + 1) * ns = i * ns + ns := by ring
  omega

/-- C2: the producer truncates to `batch_size * batch_len` elements,
reshapes row-major into `batch_size` rows with entry `(r, c)` equal to
raw element `r * batch_len + c`, and yields exactly
`(batch_len - 1) / num_steps` windows per epoch. -/
theorem ptbProducer_grid_spec (raw : List Int) (bs ns : Nat)
    (hbs : 0 < bs) (hns : 0 < ns) :
    (truncData raw bs).length = bs * batchLen raw.length bs ∧
    (grid raw bs).length = bs ∧
    (∀ r c, r < bs → c < batchLen raw.length bs →
      ((grid raw bs).getD r []).getD c 0 =
        raw.getD (r * batchLen raw.length bs + c) 0) ∧
    numWindows raw.length bs ns = (batchLen raw.length bs - 1) / ns := by
  refine ⟨truncData_length raw bs, ?_, ?_, numWindows_eq _ _ _ hns⟩
  · unfold grid
    simp
  · intro r c hr hc
    rw [grid_getD raw bs r hr, grid_entry raw bs r c hr hc]

/-- Witness for C2 on the sequence `[0,1,2,3,4]` with
`batch_size = 2`, `num_steps = 1`. -/
theorem ptbProducer_grid_spec_witness :
    (truncData [0, 1, 2, 3, 4] 2).length =
      2 * batchLen ([0, 1, 2, 3, 4] : List Int).length 2 ∧
    (grid [0, 1, 2, 3, 4] 2).length = 2 ∧
    ((grid [0, 1, 2, 3, 4] 2).getD 1 []).getD 1 0 =
      ([0, 1, 2, 3, 4] : List Int).getD
        (1 * batchLen ([0, 1, 2, 3, 4] : List Int).length 2 + 1) 0 ∧
    numWindows ([0, 1, 2, 3, 4] : List Int).length 2 1 =
      (batchLen ([0, 1, 2, 3, 4] : List Int).length 2 - 1) / 1 := by
  obtain ⟨h1, h2, h3, h4⟩ :=
    ptbProducer_grid_spec [0, 1, 2, 3, 4] 2 1 (by decide) (by decide)
  exact ⟨h1, h2, h3 1 1 (by decide) (by decide), h4⟩

/-- Indexing a per-row map over the grid. -/
theorem map_grid_getD (raw : List Int) (bs r : Nat) (hr : r < bs)
    (f : List Int → List Int) :
    ((grid raw bs).map f).getD r [] = f (gridRow raw bs r) := by
  unfold grid
  rw [List.map_map, List.getD_eq_getElem?_getD, List.getElem?_map,
    List.getElem?_range hr]
  rfl

/-- Shifting a window of width `n` one position right inside a list:
the shifted slice drops the first column and appends element `s + n`. -/
theorem slice_shift (l : List Int) (s n : Nat) (hn : 0 < n)
    (hb : s + n + 1 ≤ l.length) :
    (l.drop (s + 1)).take n =
      ((l.drop s).take n).drop 1 ++ [l.getD (s + n) 0] := by
  have h1 : ((l.drop s).take n).drop 1 = (l.drop (s + 1)).take (n - 1) := by
    rw [List.drop_take, List.drop_drop]
  have hlt : s + n < l.length := by omega
  have h2 : (l.drop (s + 1)).take n =
      (l.drop (s + 1)).take (n - 1) ++ [l.getD (s + n) 0] := by
    conv_lhs => rw [show n = (n - 1) + 1 by omega]
    rw [List.take_succ]
    congr 1
    rw [List.getElem?_drop, show s + 1 + (n - 1) = s + n by omega,
      List.getElem?_eq_getElem hlt, List.getD_eq_getElem?_getD,
      List.getElem?_eq_getElem hlt]
    rfl
  rw [h2, h1]

/-- C3: window `i` takes grid columns `i*num_steps .. i*num_steps+num_steps-1`
as input and columns shifted by one as target; equivalently each target
row is the input row without its first column, with grid column
`i*num_steps+num_steps` appended. -/
theorem ptbProducer_window_shift (raw : List Int) (bs ns i : Nat)
    (hns : 0 < ns) (hi : i < numWindows raw.length bs ns) :
    xWindow raw bs ns i =
      (grid raw bs).map (fun row => (row.drop (i * ns)).take ns) ∧
    yWindow raw bs ns i =
      (grid raw bs).map (fun row => (row.drop (i * ns + 1)).take ns) ∧
    ∀ r, r < bs →
      (yWindow raw bs ns i).getD r [] =
        ((xWindow raw bs ns i).getD r []).drop 1 ++
          [((grid raw bs).getD r []).getD (i * ns + ns) 0] := by
  refine ⟨rfl, rfl, ?_⟩
  intro r hr
  have hb := window_bound raw.length bs ns i hns hi
  have hrowlen := gridRow_length raw bs r hr
  rw [show xWindow raw bs ns i =
        (grid raw bs).map (fun row => (row.drop (i * ns)).take ns) from rfl,
    show yWindow raw bs ns i =
        (grid raw bs).map (fun row => (row.drop (i * ns + 1)).take ns) from rfl,
    map_grid_getD raw bs r hr, map_grid_getD raw bs r hr,
    grid_getD raw bs r hr]
  exact slice_shift (gridRow raw bs r) (i * ns) ns hns (by omega)

/-- Witness for C3 on the sequence `[0..9]` with `batch_size = 2`,
`num_steps = 3`, window `0`, row `1`. -/
theorem ptbProducer_window_shift_witness :
    xWindow [0, 1, 2, 3, 4, 5, 6, 7, 8, 9] 2 3 0 =
      (grid [0, 1, 2, 3, 4, 5, 6, 7, 8, 9] 2).map
        (fun row => (row.drop (0 * 3)).take 3) ∧
    yWindow [0, 1, 2, 3, 4, 5, 6, 7, 8, 9] 2 3 0 =
      (grid [0, 1, 2, 3, 4, 5, 6, 7, 8, 9] 2).map
        (fun row => (row.drop (0 * 3 + 1)).take 3) ∧
    (yWindow [0, 1, 2, 3, 4, 5, 6, 7, 8, 9] 2 3 0).getD 1 [] =
      ((xWindow [0, 1, 2, 3, 4, 5, 6, 7, 8, 9] 2 3 0).getD 1 []).drop 1 ++
        [((grid [0, 1, 2, 3, 4, 5, 6, 7, 8, 9] 2).getD 1 []).getD (0 * 3 + 3) 0] := by
  obtain ⟨h1, h2, h3⟩ :=
    ptbProducer_window_shift [0, 1, 2, 3, 4, 5, 6, 7, 8, 9] 2 3 0
      (by decide) (by decide)
  exact ⟨h1, h2, h3 1 (by decide)⟩

/-- C4: a positive `epoch_size` forces `batch_len ≥ num_steps + 1`, every
window index keeps both slices inside a row, and in particular the target
slice of every produced window has its full `num_steps` length. -/
theorem ptbProducer_window_bounds (raw : List Int) (bs ns : Nat)
    (hns : 0 < ns) (hpos : 0 < numWindows raw.length bs ns) :
    ns + 1 ≤ batchLen raw.length bs ∧
    (∀ i, i < numWindows raw.length bs ns →
      i * ns + ns + 1 ≤ batchLen raw.length bs) ∧
    ∀ i r, i < numWindows raw.length bs ns → r < bs →
      (((gridRow raw bs r).drop (i * ns + 1)).take ns).length = ns := by
  refine ⟨?_, fun i hi => window_bound _ _ _ _ hns hi, ?_⟩
  · have h := window_bound raw.length bs ns 0 hns hpos
    omega
  · intro i r hi hr
    have hb := window_bound raw.length bs ns i hns hi
    have hlen := gridRow_length raw bs r hr
    rw [List.length_take, List.length_drop, hlen]
    omega

/-- Witness for C4 on the sequence `[0..9]` with `batch_size = 2`,
`num_steps = 3`. -/
theorem ptbProducer_window_bounds_witness :
    3 + 1 ≤ batchLen ([0, 1, 2, 3, 4, 5, 6, 7, 8, 9] : List Int).length 2 ∧
    0 * 3 + 3 + 1 ≤ batchLen ([0, 1, 2, 3, 4, 5, 6, 7, 8, 9] : List Int).length 2 ∧
    (((gridRow [0, 1, 2, 3, 4, 5, 6, 7, 8, 9] 2 1).drop (0 * 3 + 1)).take 3).length = 3 := by
  obtain ⟨h1, h2, h3⟩ :=
    ptbProducer_window_bounds [0, 1, 2, 3, 4, 5, 6, 7, 8, 9] 2 3
      (by decide) (by decide)
  exact ⟨h1, h2 0 (by decide), h3 0 1 (by decide) (by decide)⟩

/-- The sort key is transitive. -/
instance pairRel_isTrans {α : Type} [LinearOrder α] :
    IsTrans (α × Nat) pairRel := by
  constructor
  intro a b c hab hbc
  unfold pairRel at *
  rcases hab with h1 | ⟨h1, h1t⟩ <;> rcases hbc with h2 | ⟨h2, h2t⟩
  · left; omega
  · left; omega
  · left; omega
  · exact Or.inr ⟨by omega, le_trans h1t h2t⟩

/-- The sort key is total. -/
instance pairRel_isTotal {α : Type} [LinearOrder α] :
    IsTotal (α × Nat) pairRel := by
  constructor
  intro a b
  unfold pairRel
  rcases Nat.lt_trichotomy a.2 b.2 with h | h | h
  · exact Or.inr (Or.inl h)
  · rcases le_total a.1 b.1 with ht | ht
    · exact Or.inl (Or.inr ⟨h, ht⟩)
    · exact Or.inr (Or.inr ⟨h.symm, ht⟩)
  · exact Or.inl (Or.inl h)

/-- The sort key is antisymmetric: distinct pairs never tie. -/
instance pairRel_isAntisymm {α : Type} [LinearOrder α] :
    IsAntisymm (α × Nat) pairRel := by
  constructor
  intro a b hab hba
  unfold pairRel at *
  rcases hab with h1 | ⟨h1, h1t⟩ <;> rcases hba with h2 | ⟨h2, h2t⟩ <;>
    first
      | omega
      | exact Prod.ext (le_antisymm h1t h2t) (by omega)

/-- The tokens of the counter items are exactly the distinct tokens. -/
theorem countPairs_map_fst {α : Type} [DecidableEq α] (data : List α) :
    (countPairs data).map Prod.fst = data.dedup := by
  unfold countPairs
  rw [List.map_map]
  exact List.map_id' data.dedup

/-- The vocabulary is a permutation of the distinct tokens. -/
theorem buildVocab_perm_dedup {α : Type} [LinearOrder α] [DecidableEq α] (data : List α) :
    (buildVocab data).Perm data.dedup := by
  unfold buildVocab vocabFromPairs
  have h := (List.perm_insertionSort pairRel (countPairs data)).map Prod.fst
  rw [countPairs_map_fst] at h
  exact h

/-- The vocabulary has no duplicate tokens. -/
theorem buildVocab_nodup {α : Type} [LinearOrder α] [DecidableEq α] (data : List α) :
    (buildVocab data).Nodup :=
  ((buildVocab_perm_dedup data).nodup_iff).mpr (List.nodup_dedup data)

/-- The vocabulary size is the number of distinct tokens. -/
theorem buildVocab_length {α : Type} [LinearOrder α] [DecidableEq α] (data : List α) :
    (buildVocab data).length = data.dedup.length :=
  (buildVocab_perm_dedup data).length_eq

/-- An assigned id is always below the vocabulary size. -/
theorem lookupId_lt {α : Type} [DecidableEq α] (v : List α) (w : α) (i : Nat) :
    lookupId v w = some i → i < v.length := by
  induction v generalizing i with
  | nil => intro h; simp [lookupId] at h
  | cons x xs ih =>
    intro h
    simp only [lookupId] at h
    split at h
    · simp only [Option.some.injEq] at h
      simp [← h]
    · cases hx : lookupId xs w with
      | none => rw [hx] at h; simp at h
      | some j =>
        rw [hx] at h
        simp only [Option.map_some', Option.some.injEq] at h
        have := ih j hx
        simp only [List.length_cons]
        omega

/-- In a duplicate-free vocabulary, the token at position `i` is assigned
id `i`. -/
theorem lookupId_getElem {α : Type} [DecidableEq α] (v : List α)
    (hn : v.Nodup) (i : Nat) (h : i < v.length) :
    lookupId v v[i] = some i := by
  induction v generalizing i with
  | nil => simp at h
  | cons x xs ih =>
    cases i with
    | zero => simp [lookupId]
    | succ j =>
      have hj : j < xs.length := by simpa using h
      have hx : x ≠ xs[j] := by
        intro heq
        exact (List.nodup_cons.mp hn).1 (heq ▸ List.getElem_mem hj)
      simp only [lookupId, List.getElem_cons_succ]
      rw [if_neg hx, ih (List.nodup_cons.mp hn).2 j hj]
      rfl

/-- The assigned ids of a duplicate-free vocabulary are exactly
`0 .. length - 1`. -/
theorem lookupId_range {α : Type} [DecidableEq α] (v : List α)
    (hn : v.Nodup) (i : Nat) :
    (∃ w, lookupId v w = some i) ↔ i < v.length :=
  ⟨fun ⟨w, hw⟩ => lookupId_lt v w i hw,
   fun h => ⟨v[i], lookupId_getElem v hn i h⟩⟩

/-- The sorted counter items are pairwise ordered by `(-count, token)`. -/
theorem sortedPairs_pairwise {α : Type} [LinearOrder α]
    (items : List (α × Nat)) :
    List.Pairwise (fun p q : α × Nat => q.2 < p.2 ∨ (p.2 = q.2 ∧ p.1 ≤ q.1))
      (List.insertionSort pairRel items) := by
  have h := List.sorted_insertionSort pairRel items
  exact h.imp (fun hab => hab)

/-- Every sorted counter item carries the exact multiplicity of its
token. -/
theorem sortedPairs_count {α : Type} [LinearOrder α] [DecidableEq α] (data : List α)
    (p : α × Nat) (hp : p ∈ List.insertionSort pairRel (countPairs data)) :
    p.2 = data.countP (fun x => decide (x = p.1)) := by
  have hmem : p ∈ countPairs data :=
    (List.perm_insertionSort pairRel (countPairs data)).mem_iff.mp hp
  unfold countPairs at hmem
  rw [List.mem_map] at hmem
  obtain ⟨w, _, rfl⟩ := hmem
  rfl

/-- C6: the vocabulary builder tallies frequencies exactly, sorts the
tokens by `(-count, token)`, and assigns ids `0..N-1` in that order: the
set of assigned ids is exactly the contiguous range below `N`, the number
of distinct tokens, with no gaps and no duplicates. -/
theorem buildVocab_contiguous_ids (text : List Char) :
    (buildVocab (readWords text)).length = (readWords text).dedup.length ∧
    (∀ p ∈ List.insertionSort pairRel (countPairs (readWords text)),
      p.2 = (readWords text).countP (fun x => decide (x = p.1))) ∧
    List.Pairwise (fun p q : String × Nat => q.2 < p.2 ∨ (p.2 = q.2 ∧ p.1 ≤ q.1))
      (List.insertionSort pairRel (countPairs (readWords text))) ∧
    (∀ i, (∃ w, lookupId (buildVocab (readWords text)) w = some i) ↔
      i < (readWords text).dedup.length) ∧
    ∀ w i j, lookupId (buildVocab (readWords text)) w = some i →
      lookupId (buildVocab (readWords text)) w = some j → i = j := by
  refine ⟨buildVocab_length _, sortedPairs_count _, sortedPairs_pairwise _,
    ?_, ?_⟩
  · intro i
    rw [lookupId_range _ (buildVocab_nodup _) i, buildVocab_length]
  · intro w i j hi hj
    rw [hi] at hj
    exact Option.some.inj hj

/-- Witness for C6 on a training text whose token counts are all
distinct. -/
theorem buildVocab_contiguous_ids_witness :
    (buildVocab (readWords ("a a a a c c c b \n \n").data)).length =
      (readWords ("a a a a c c c b \n \n").data).dedup.length ∧
    (("a", 4) : String × Nat).2 =
      (readWords ("a a a a c c c b \n \n").data).countP
        (fun x => decide (x = (("a", 4) : String × Nat).1)) ∧
    ((∃ w, lookupId (buildVocab (readWords ("a a a a c c c b \n \n").data)) w = some 3) ↔
      3 < (readWords ("a a a a c c c b \n \n").data).dedup.length) ∧
    (3 : Nat) = 3 := by
  obtain ⟨h1, h2, h3, h4, h5⟩ :=
    buildVocab_contiguous_ids ("a a a a c c c b \n \n").data
  exact ⟨h1, h2 ("a", 4) (by decide), h4 3, h5 "b" 3 3 (by decide) (by decide)⟩

/-- C7: building the vocabulary is deterministic: whichever order the
counter hands out its items (any two permutations of the exact counts),
the resulting sorted token list, the token-to-id mapping, and the
encoding of any file against it are identical. -/
theorem buildVocab_deterministic (text : List Char)
    (items₁ items₂ : List (String × Nat))
    (h₁ : items₁.Perm (countPairs (readWords text)))
    (h₂ : items₂.Perm (countPairs (readWords text))) :
    vocabFromPairs items₁ = vocabFromPairs items₂ ∧
    (∀ w, lookupId (vocabFromPairs items₁) w = lookupId (vocabFromPairs items₂) w) ∧
    ∀ ftext : List Char,
      fileToIds (lookupId (vocabFromPairs items₁)) (readWords ftext) =
        fileToIds (lookupId (vocabFromPairs items₂)) (readWords ftext) := by
  have hperm : (List.insertionSort pairRel items₁).Perm
      (List.insertionSort pairRel items₂) :=
    ((List.perm_insertionSort pairRel items₁).trans (h₁.trans h₂.symm)).trans
      (List.perm_insertionSort pairRel items₂).symm
  have heq : List.insertionSort pairRel items₁ = List.insertionSort pairRel items₂ :=
    List.eq_of_perm_of_sorted hperm (List.sorted_insertionSort pairRel items₁)
      (List.sorted_insertionSort pairRel items₂)
  have hv : vocabFromPairs items₁ = vocabFromPairs items₂ := by
    unfold vocabFromPairs
    rw [heq]
  exact ⟨hv, fun w => by rw [hv], fun f => by rw [hv]⟩

/-- Witness for C7: two different item orders for the text `b a b`
produce the same vocabulary, mapping and encodings. -/
theorem buildVocab_deterministic_witness :
    vocabFromPairs [("a", 1), ("b", 2)] = vocabFromPairs [("b", 2), ("a", 1)] ∧
    lookupId (vocabFromPairs [("a", 1), ("b", 2)]) "a" =
      lookupId (vocabFromPairs [("b", 2), ("a", 1)]) "a" ∧
    fileToIds (lookupId (vocabFromPairs [("a", 1), ("b", 2)]))
        (readWords ("a b c").data) =
      fileToIds (lookupId (vocabFromPairs [("b", 2), ("a", 1)]))
        (readWords ("a b c").data) := by
  obtain ⟨h1, h2, h3⟩ := buildVocab_deterministic ("b a b").data
    [("a", 1), ("b", 2)] [("b", 2), ("a", 1)] (by decide) (by decide)
  exact ⟨h1, h2 "a", h3 ("a b c").data⟩

/-- C8: encoding against a vocabulary silently drops every absent token,
maps every present token to its id, and preserves the relative order of
the kept tokens: the result is exactly the present tokens, in order,
mapped to their ids. -/
theorem fileToIds_spec (m : String → Option Nat) (data : List String) :
    fileToIds m data =
      (data.filter (fun w => (m w).isSome)).map (fun w => (m w).getD 0) ∧
    (∀ w, m w = none → fileToIds m (w :: data) = fileToIds m data) ∧
    (∀ w i, m w = some i → fileToIds m (w :: data) = i :: fileToIds m data) := by
  refine ⟨?_, ?_, ?_⟩
  · induction data with
    | nil => rfl
    | cons x xs ih =>
      cases hx : m x with
      | none => simp [fileToIds, hx, List.filter_cons, ih]
      | some j => simp [fileToIds, hx, List.filter_cons, ih]
  · intro w hw
    simp [fileToIds, hw]
  · intro w i hw
    simp [fileToIds, hw]

/-- Witness for C8 with a one-entry vocabulary over the tokens
`[x, a]`. -/
theorem fileToIds_spec_witness :
    fileToIds (fun w => if w = "a" then some 3 else none) ["x", "a"] =
      (["x", "a"].filter
          (fun w => ((fun w => if w = "a" then some 3 else none) w).isSome)).map
        (fun w => ((fun w => if w = "a" then some 3 else none) w).getD 0) ∧
    fileToIds (fun w => if w = "a" then some 3 else none) ("x" :: ["x", "a"]) =
      fileToIds (fun w => if w = "a" then some 3 else none) ["x", "a"] ∧
    fileToIds (fun w => if w = "a" then some 3 else none) ("a" :: ["x", "a"]) =
      3 :: fileToIds (fun w => if w = "a" then some 3 else none) ["x", "a"] := by
  obtain ⟨h1, h2, h3⟩ :=
    fileToIds_spec (fun w => if w = "a" then some 3 else none) ["x", "a"]
  exact ⟨h1, h2 "x" (by decide), h3 "a" 3 (by decide)⟩

theorem isPrefixOf_iff (p : List Char) : ∀ s : List Char,
    p.isPrefixOf s = true ↔ ∃ t, s = p ++ t := by
  induction p with
  | nil =>
    intro s
    simp [List.isPrefixOf]
  | cons a as ih =>
    intro s
    cases s with
    | nil => simp [List.isPrefixOf]
    | cons b bs =>
      simp only [List.isPrefixOf, Bool.and_eq_true, beq_iff_eq, ih bs]
      constructor
      · rintro ⟨rfl, t, rfl⟩
        exact ⟨t, rfl⟩
      · rintro ⟨t, ht⟩
        simp only [List.cons_append, List.cons.injEq] at ht
        exact ⟨ht.1.symm, t, ht.2⟩

theorem containsTok_iff (pat : List Char) : ∀ s : List Char,
    containsTok pat s = true ↔ ∃ a b, s = a ++ pat ++ b := by
  intro s
  induction s with
  | nil =>
    simp only [containsTok, List.isEmpty_iff]
    constructor
    · rintro rfl
      exact ⟨[], [], rfl⟩
    · rintro ⟨a, b, h⟩
      have hlen := congrArg List.length h
      simp only [List.length_nil, List.length_append] at hlen
      have hl : pat.length = 0 := by omega
      exact List.length_eq_zero.mp hl
  | cons c rest ih =>
    simp only [containsTok, Bool.or_eq_true, ih, isPrefixOf_iff]
    constructor
    · rintro (⟨t, ht⟩ | ⟨a, b, rfl⟩)
      · exact ⟨[], t, by simp [ht]⟩
      · exact ⟨c :: a, b, rfl⟩
    · rintro ⟨a, b, h⟩
      cases a with
      | nil =>
        left
        exact ⟨b, by simpa using h⟩
      | cons x a2 =>
        right
        simp only [List.cons_append, List.cons.injEq] at h
        exact ⟨a2, b, h.2⟩

theorem replacePrefixAux (pat rep : List Char) (hpat : pat ≠ [])
    (hrep : rep ≠ []) (hdisj : ∀ c ∈ rep, c ∉ pat) :
    ∀ (n : Nat) (s : List Char), s.length ≤ n → ∀ k, k < pat.length →
      (pat.drop k).isPrefixOf (replaceList pat rep s) = true →
      ∃ t, s = pat.drop k ++ t := by
  intro n
  induction n with
  | zero =>
    intro s hs k hk hpre
    have hsn : s = [] := List.eq_nil_of_length_eq_zero (by omega)
    subst hsn
    rw [show replaceList pat rep [] = [] from rfl, isPrefixOf_iff] at hpre
    obtain ⟨t, ht⟩ := hpre
    have hlen := congrArg List.length ht
    simp only [List.length_nil, List.length_append, List.length_drop] at hlen
    omega
  | succ n ih =>
    intro s hs k hk hpre
    cases s with
    | nil =>
      rw [show replaceList pat rep [] = [] from rfl, isPrefixOf_iff] at hpre
      obtain ⟨t, ht⟩ := hpre
      have hlen := congrArg List.length ht
      simp only [List.length_nil, List.length_append, List.length_drop] at hlen
      omega
    | cons c rest =>
      rw [replaceList_cons] at hpre
      have hdropk : pat.drop k = pat[k] :: pat.drop (k + 1) :=
        List.drop_eq_getElem_cons hk
      by_cases hm : pat.isPrefixOf (c :: rest) = true
      · rw [if_pos ⟨hm, hpat⟩] at hpre
        obtain ⟨r0, rep2, hrepeq⟩ : ∃ r0 rep2, rep = r0 :: rep2 := by
          cases rep with
          | nil => exact absurd rfl hrep
          | cons x xs => exact ⟨x, xs, rfl⟩
        rw [hdropk, hrepeq] at hpre
        simp only [List.cons_append, List.isPrefixOf, Bool.and_eq_true,
          beq_iff_eq] at hpre
        have h1 : pat[k] ∈ pat := List.getElem_mem hk
        have h2 : r0 ∈ rep := by
          rw [hrepeq]
          exact List.mem_cons_self r0 rep2
        exact absurd (hpre.1 ▸ h1) (hdisj r0 h2)
      · rw [if_neg (fun hand => hm hand.1)] at hpre
        rw [hdropk] at hpre
        simp only [List.isPrefixOf, Bool.and_eq_true, beq_iff_eq] at hpre
        obtain ⟨hck, hpre2⟩ := hpre
        by_cases hkk : k + 1 < pat.length
        · obtain ⟨t, ht⟩ := ih rest (by simp at hs; omega) (k + 1) hkk hpre2
          refine ⟨t, ?_⟩
          rw [hdropk, ht, hck, List.cons_append]
        · have hdk1 : pat.drop (k + 1) = [] := List.drop_eq_nil_of_le (by omega)
          refine ⟨rest, ?_⟩
          rw [hdropk, hdk1, hck]
          rfl

theorem replace_no_occur (pat rep : List Char) (hpat : pat ≠ [])
    (hrep : rep ≠ []) (hdisj : ∀ c ∈ rep, c ∉ pat) :
    ∀ (n : Nat) (s : List Char), s.length ≤ n →
      containsTok pat (replaceList pat rep s) = false := by
  intro n
  induction n with
  | zero =>
    intro s hs
    have hsn : s = [] := List.eq_nil_of_length_eq_zero (by omega)
    subst hsn
    rw [show replaceList pat rep [] = [] from rfl]
    cases pat with
    | nil => exact absurd rfl hpat
    | cons p0 pr => rfl
  | succ n ih =>
    intro s hs
    cases s with
    | nil =>
      rw [show replaceList pat rep [] = [] from rfl]
      cases pat with
      | nil => exact absurd rfl hpat
      | cons p0 pr => rfl
    | cons c rest =>
      rw [replaceList_cons]
      by_cases hm : pat.isPrefixOf (c :: rest) = true
      · rw [if_pos ⟨hm, hpat⟩]
        by_contra hcon
        rw [Bool.not_eq_false, containsTok_iff] at hcon
        obtain ⟨a, b, hab⟩ := hcon
        have hR : containsTok pat
            (replaceList pat rep (rest.drop (pat.length - 1))) = false := by
          refine ih _ ?_
          have := List.length_drop (pat.length - 1) rest
          simp only [List.length_cons] at hs
          omega
        rw [List.append_assoc] at hab
        rcases List.append_eq_append_iff.mp hab with ⟨a2, ha2, hb2⟩ | ⟨c2, hc2, hd2⟩
        · have hcon2 : containsTok pat
              (replaceList pat rep (rest.drop (pat.length - 1))) = true :=
            (containsTok_iff _ _).mpr ⟨a2, b, by rw [hb2, List.append_assoc]⟩
          rw [hR] at hcon2
          exact Bool.false_ne_true hcon2
        · cases c2 with
          | nil =>
            have hcon2 : containsTok pat
                (replaceList pat rep (rest.drop (pat.length - 1))) = true :=
              (containsTok_iff _ _).mpr ⟨[], b, by simpa using hd2.symm⟩
            rw [hR] at hcon2
            exact Bool.false_ne_true hcon2
          | cons d ds =>
            cases pat with
            | nil => exact hpat rfl
            | cons p0 pr =>
              simp only [List.cons_append, List.cons.injEq] at hd2
              have hdrep : d ∈ rep := by
                rw [hc2]
                exact List.mem_append_right a (List.mem_cons_self d ds)
              have hp0 : p0 ∈ (p0 :: pr) := List.mem_cons_self p0 pr
              exact (hdisj d hdrep) (hd2.1 ▸ hp0)
      · rw [if_neg (fun hand => hm hand.1)]
        by_contra hcon
        rw [Bool.not_eq_false, containsTok_iff] at hcon
        obtain ⟨a, b, hab⟩ := hcon
        have hR : containsTok pat (replaceList pat rep rest) = false := by
          refine ih rest ?_
          simp only [List.length_cons] at hs
          omega
        cases a with
        | nil =>
          simp only [List.nil_append] at hab
          cases pat with
          | nil => exact hpat rfl
          | cons p0 pr =>
            simp only [List.cons_append, List.cons.injEq] at hab
            by_cases hkk : 1 < (p0 :: pr).length
            · have hpre : ((p0 :: pr).drop 1).isPrefixOf
                  (replaceList (p0 :: pr) rep rest) = true := by
                rw [show (p0 :: pr).drop 1 = pr from rfl, isPrefixOf_iff]
                exact ⟨b, hab.2⟩
              obtain ⟨t, ht⟩ := replacePrefixAux (p0 :: pr) rep hpat hrep hdisj
                rest.length rest le_rfl 1 hkk hpre
              rw [show (p0 :: pr).drop 1 = pr from rfl] at ht
              apply hm
              rw [isPrefixOf_iff]
              exact ⟨t, by rw [hab.1, ht, List.cons_append]⟩
            · have hpr : pr = [] := by
                simp only [List.length_cons, not_lt] at hkk
                exact List.eq_nil_of_length_eq_zero (by omega)
              subst hpr
              apply hm
              rw [isPrefixOf_iff]
              exact ⟨rest, by rw [hab.1]; rfl⟩
        | cons x a2 =>
          simp only [List.cons_append, List.cons.injEq] at hab
          have hcon2 : containsTok pat (replaceList pat rep rest) = true :=
            (containsTok_iff _ _).mpr ⟨a2, b, hab.2⟩
          rw [hR] at hcon2
          exact Bool.false_ne_true hcon2

theorem replace_count (pat rep : List Char) (ch : Char)
    (hp : ch ∉ pat) (hr : ch ∉ rep) :
    ∀ (n : Nat) (s : List Char), s.length ≤ n →
      (replaceList pat rep s).count ch = s.count ch := by
  intro n
  induction n with
  | zero =>
    intro s hs
    have hsn : s = [] := List.eq_nil_of_length_eq_zero (by omega)
    subst hsn
    rfl
  | succ n ih =>
    intro s hs
    cases s with
    | nil => rfl
    | cons c rest =>
      rw [replaceList_cons]
      by_cases hm : pat.isPrefixOf (c :: rest) = true ∧ pat ≠ []
      · rw [if_pos hm]
        obtain ⟨t, ht⟩ := (isPrefixOf_iff pat (c :: rest)).mp hm.1
        cases pat with
        | nil => exact absurd rfl hm.2
        | cons p0 pr =>
          simp only [List.cons_append, List.cons.injEq] at ht
          have hdrop : rest.drop ((p0 :: pr).length - 1) = t := by
            rw [ht.2, show (p0 :: pr).length - 1 = pr.length by simp]
            exact List.drop_left pr t
          have htlen : t.length ≤ n := by
            have := congrArg List.length ht.2
            simp only [List.length_append] at this
            simp only [List.length_cons] at hs
            omega
          rw [List.count_append, hdrop, ih t htlen]
          have hcrep : rep.count ch = 0 := List.count_eq_zero_of_not_mem hr
          have hcpat : (p0 :: pr).count ch = 0 := List.count_eq_zero_of_not_mem hp
          have hs2 : (c :: rest : List Char) = (p0 :: pr) ++ t := by
            rw [ht.1, ht.2, List.cons_append]
          rw [hs2, List.count_append, hcpat, hcrep]
      · rw [if_neg hm]
        have hrest : rest.length ≤ n := by
          simp only [List.length_cons] at hs
          omega
        simp only [List.count_cons, ih rest hrest]

theorem mem_replaceList (pat rep : List Char) (ch : Char) :
    ∀ (n : Nat) (s : List Char), s.length ≤ n →
      ch ∈ replaceList pat rep s → ch ∈ rep ∨ ch ∈ s := by
  intro n
  induction n with
  | zero =>
    intro s hs h
    have hsn : s = [] := List.eq_nil_of_length_eq_zero (by omega)
    subst hsn
    rw [show replaceList pat rep [] = [] from rfl] at h
    exact absurd h (List.not_mem_nil ch)
  | succ n ih =>
    intro s hs h
    cases s with
    | nil =>
      rw [show replaceList pat rep [] = [] from rfl] at h
      exact absurd h (List.not_mem_nil ch)
    | cons c rest =>
      rw [replaceList_cons] at h
      by_cases hm : pat.isPrefixOf (c :: rest) = true ∧ pat ≠ []
      · rw [if_pos hm] at h
        rcases List.mem_append.mp h with h1 | h2
        · exact Or.inl h1
        · have hdlen : (rest.drop (pat.length - 1)).length ≤ n := by
            have := List.length_drop (pat.length - 1) rest
            simp only [List.length_cons] at hs
            omega
          rcases ih _ hdlen h2 with h3 | h4
          · exact Or.inl h3
          · exact Or.inr (List.mem_cons_of_mem c (List.drop_subset _ rest h4))
      · rw [if_neg hm] at h
        have hrest : rest.length ≤ n := by
          simp only [List.length_cons] at hs
          omega
        rcases List.mem_cons.mp h with h1 | h2
        · exact Or.inr (h1 ▸ List.mem_cons_self c rest)
        · rcases ih rest hrest h2 with h3 | h4
          · exact Or.inl h3
          · exact Or.inr (List.mem_cons_of_mem c h4)

theorem replace_single_not_mem (ch : Char) (rep : List Char) (hr : ch ∉ rep) :
    ∀ (n : Nat) (s : List Char), s.length ≤ n →
      ch ∉ replaceList [ch] rep s := by
  intro n
  induction n with
  | zero =>
    intro s hs
    have hsn : s = [] := List.eq_nil_of_length_eq_zero (by omega)
    subst hsn
    rw [show replaceList [ch] rep [] = [] from rfl]
    exact List.not_mem_nil ch
  | succ n ih =>
    intro s hs
    cases s with
    | nil =>
      rw [show replaceList [ch] rep [] = [] from rfl]
      exact List.not_mem_nil ch
    | cons c rest =>
      rw [replaceList_cons]
      have hrest : rest.length ≤ n := by
        simp only [List.length_cons] at hs
        omega
      by_cases hm : ([ch] : List Char).isPrefixOf (c :: rest) = true ∧
          ([ch] : List Char) ≠ []
      · rw [if_pos hm]
        intro hmem
        rcases List.mem_append.mp hmem with h1 | h2
        · exact hr h1
        · rw [show ([ch] : List Char).length - 1 = 0 from rfl,
            List.drop_zero] at h2
          exact ih rest hrest h2
      · rw [if_neg hm]
        intro hmem
        have hne : c ≠ ch := by
          intro he
          apply hm
          refine ⟨?_, by simp⟩
          rw [isPrefixOf_iff]
          exact ⟨rest, by rw [he]; rfl⟩
        rcases List.mem_cons.mp hmem with h1 | h2
        · exact hne h1.symm
        · exact ih rest hrest h2

theorem splitWs_no_ws : ∀ (s acc : List Char),
    (∀ c ∈ acc, ¬ c.isWhitespace) →
    ∀ w ∈ splitWs acc s, ∀ ch ∈ w, ¬ ch.isWhitespace = true := by
  intro s
  induction s with
  | nil =>
    intro acc hacc w hw ch hch
    simp only [splitWs] at hw
    split at hw
    · exact absurd hw (List.not_mem_nil w)
    · simp only [List.mem_singleton] at hw
      subst hw
      exact hacc ch (List.mem_reverse.mp hch)
  | cons c rest ih =>
    intro acc hacc w hw ch hch
    simp only [splitWs] at hw
    by_cases hws : c.isWhitespace = true
    · rw [if_pos hws] at hw
      split at hw
      · exact ih [] (fun x hx => absurd hx (List.not_mem_nil x)) w hw ch hch
      · rcases List.mem_cons.mp hw with h1 | h2
        · subst h1
          exact hacc ch (List.mem_reverse.mp hch)
        · exact ih [] (fun x hx => absurd hx (List.not_mem_nil x)) w h2 ch hch
    · rw [if_neg hws] at hw
      refine ih (c :: acc) ?_ w hw ch hch
      intro x hx
      rcases List.mem_cons.mp hx with h1 | h2
      · exact h1 ▸ hws
      · exact hacc x h2

/-- C10: in character mode every `<eos>` occurrence — whether introduced
by the newline replacement or already present in the raw text — is
collapsed before character splitting: the character sequence contains no
`<eos>` occurrence and no newline, while whitespace such as spaces
survives as character tokens (their count is preserved), unlike word
mode, whose tokens never contain a space; on the text `a<eos>b\nc` the
characters are exactly `a+b+c`. -/
theorem readChars_eos_collapse :
    (∀ s : List Char,
      containsTok eosTok (readChars s) = false ∧
      (readChars s).count ' ' = s.count ' ' ∧
      ¬ '\n' ∈ readChars s ∧
      ∀ w ∈ readWordsL s, ¬ ' ' ∈ w) ∧
    readChars ("a<eos>b\nc").data = ("a+b+c").data := by
  constructor
  · intro s
    refine ⟨?_, ?_, ?_, ?_⟩
    · exact replace_no_occur eosTok plusTok (by decide) (by decide) (by decide)
        (replaceList newlineTok eosTok s).length _ le_rfl
    · have h1 : (replaceList newlineTok eosTok s).count ' ' = s.count ' ' :=
        replace_count newlineTok eosTok ' ' (by decide) (by decide) s.length s le_rfl
      have h2 : (readChars s).count ' ' =
          (replaceList newlineTok eosTok s).count ' ' :=
        replace_count eosTok plusTok ' ' (by decide) (by decide) _ _ le_rfl
      rw [h2, h1]
    · intro hmem
      rcases mem_replaceList eosTok plusTok '\n' _ _ le_rfl hmem with h1 | h2
      · exact absurd h1 (by decide)
      · exact replace_single_not_mem '\n' eosTok (by decide) s.length s le_rfl h2
    · intro w hw hmem
      exact splitWs_no_ws (replaceList newlineTok eosTok s) []
        (fun c hc => absurd hc (List.not_mem_nil c)) w hw ' ' hmem (by decide)
  · decide

/-- Witness for C10 on the texts `x y\nz` and `a<eos>b\nc`. -/
theorem readChars_eos_collapse_witness :
    containsTok eosTok (readChars ("x y\nz").data) = false ∧
    (readChars ("x y\nz").data).count ' ' = ("x y\nz").data.count ' ' ∧
    ¬ '\n' ∈ readChars ("x y\nz").data ∧
    ¬ ' ' ∈ (['x'] : List Char) ∧
    readChars ("a<eos>b\nc").data = ("a+b+c").data := by
  obtain ⟨h, hconc⟩ := readChars_eos_collapse
  obtain ⟨h1, h2, h3, h4⟩ := h ("x y\nz").data
  exact ⟨h1, h2, h3, h4 ['x'] (by decide), hconc⟩
